import Mathlib

/-!
Verification of the cumin "direct" backend (src/cumin/backends/direct.py).

The file embeds, as executable Lean definitions:

* the pyparsing query grammar built in `grammar()` (lines 9-43 of the
  source): a fueled recursive-descent parser `runP` that follows the
  pyparsing combinator semantics of the exact expression

    boolean = (CaselessKeyword("and not").leaveWhitespace()
               | CaselessKeyword("and") | CaselessKeyword("xor")
               | CaselessKeyword("or"))("bool")
    lpar  = Literal("(")("open_subgroup")
    rpar  = Literal(")")("close_subgroup")
    hosts = (~(boolean) + Word(alphanums + "-_.,!&^[]"))("hosts")
    item  = hosts | lpar + full_grammar + rpar
    full_grammar << Group(item) + ZeroOrMore(Group(boolean + item))

* the token tree builder `DirectQuery._parse_token` (lines 60-85), as
  `parseStep`, over a model of the aggregation-framework stack
  (`BaseQueryAggregator` is not part of the sources; it is modelled from
  the spec where noted);

* the ClusterShell `NodeSet` host-pattern range expansion (not part of
  the sources; modelled from the spec where noted).

Machine strings are `List Char`; positions are handled by passing the
remaining suffix.  Recursion through nested groups uses an explicit fuel
argument (structural recursion on `Nat`) so that every definition
evaluates by kernel reduction.
-/

/-! ### Character classes (pyparsing defaults and the grammar's Word set) -/

/-- pyparsing `ParserElement.DEFAULT_WHITE_CHARS = " \n\t"`. -/
def wsChar (c : Char) : Bool := c = ' ' || c = '\t' || c = '\n'

/-- pyparsing `Keyword.DEFAULT_KEYWORD_CHARS = alphanums + "_$"`:
the characters that may not be adjacent to a matched keyword. -/
def identChar (c : Char) : Bool := c.isAlphanum || c = '_' || c = '$'

/-- The `Word(pp.alphanums + '-_.,!&^[]')` character set of the `hosts`
token (source line 35). -/
def hostChar (c : Char) : Bool :=
  c.isAlphanum || c = '-' || c = '_' || c = '.' || c = ',' ||
  c = '!' || c = '&' || c = '^' || c = '[' || c = ']'

/-- Leading-whitespace skipping performed by every pyparsing element
before matching. -/
def skipWs (cs : List Char) : List Char := cs.dropWhile wsChar

/-! ### Terminal matchers -/

/-- `CaselessKeyword(kw)` at the head of `cs` (whitespace already
skipped): the next `kw.length` characters must equal `kw` up to case and
the following character, if any, must not be an `identChar`.
pyparsing also checks that the PREVIOUS character is not an `identChar`;
in this grammar the keyword is only ever tried at the start of input or
right after whitespace, `(` or `)`, so that check can never fire and is
omitted here.  Returns the remaining input. -/
def kwAt (kw : List Char) (cs : List Char) : Option (List Char) :=
  if (cs.take kw.length).map Char.toLower = kw then
    match cs.drop kw.length with
    | [] => some []
    | c :: r => if identChar c then none else some (c :: r)
  else none

/-- The `boolean` MatchFirst (source lines 27-28): alternatives are tried
in written order, so `and not` is tried before `and`.  The canonical
lower-case text of the keyword is returned, as `CaselessKeyword` does. -/
def boolMatch (cs : List Char) : Option (String × List Char) :=
  let cs1 := skipWs cs
  match kwAt ("and not".toList) cs1 with
  | some r => some ("and not", r)
  | none =>
  match kwAt ("and".toList) cs1 with
  | some r => some ("and", r)
  | none =>
  match kwAt ("xor".toList) cs1 with
  | some r => some ("xor", r)
  | none =>
  match kwAt ("or".toList) cs1 with
  | some r => some ("or", r)
  | none => none

/-- `Literal(c)` with leading-whitespace skipping (the parentheses of the
grammar, source lines 31-32). -/
def litMatch (c : Char) (cs : List Char) : Option (List Char) :=
  match skipWs cs with
  | [] => none
  | x :: r => if x = c then some r else none

/-- `hosts = ~(boolean) + Word(...)` (source line 35): fails where a
boolean keyword matches, otherwise takes the maximal run of `hostChar`
characters (at least one). -/
def hostsMatch (cs : List Char) : Option (String × List Char) :=
  let cs1 := skipWs cs
  match boolMatch cs1 with
  | some _ => none
  | none =>
    match cs1.takeWhile hostChar with
    | [] => none
    | w => some (String.mk w, cs1.dropWhile hostChar)

/-! ### ParseResults model

A pyparsing `ParseResults`, as `DirectQuery._parse_token` observes it:
the ordered raw tokens (`for subtoken in token`, where plain strings are
grammar literals and nested results are subgroups) together with the
named results that `token.asDict()` exposes for this grammar:
`bool`, `hosts`, `open_subgroup`, `close_subgroup`.  The two parenthesis
names always carry the literal text, so only their presence is kept. -/

mutual
inductive PItem : Type where
  | lit : String → PItem
  | grp : PRes → PItem
inductive PRes : Type where
  | mk : List PItem → Option String → Option (List String) → Bool → Bool → PRes
end

def PRes.items : PRes → List PItem
  | .mk i _ _ _ _ => i

def PRes.boolv : PRes → Option String
  | .mk _ b _ _ _ => b

def PRes.hostsv : PRes → Option (List String)
  | .mk _ _ h _ _ => h

def PRes.openSub : PRes → Bool
  | .mk _ _ _ o _ => o

def PRes.closeSub : PRes → Bool
  | .mk _ _ _ _ c => c

/-- Result of the `item` production: a hosts word or a parenthesized
subquery (the list of its groups). -/
inductive ItemV : Type where
  | hostsI : String → ItemV
  | subI : List PRes → ItemV

/-- The raw tokens contributed by an optional leading boolean keyword. -/
def boolLits : Option String → List PItem
  | none => []
  | some b => [.lit b]

/-- `pp.Group(...)` around one `item`, with the optional boolean keyword
that preceded it inside the same group (source line 41).  Builds the
`ParseResults` with the named results this grammar attaches. -/
def mkGroup (b : Option String) : ItemV → PRes
  | .hostsI w => .mk (boolLits b ++ [.lit w]) b (some [w]) false false
  | .subI gs => .mk (boolLits b ++ .lit "(" :: gs.map .grp ++ [.lit ")"]) b none true true

/-- Which production `runP` is asked to parse. -/
inductive PReq : Type where
  | item : PReq
  | full : PReq
  | more : List PRes → PReq

/-- What `runP` returns for each production. -/
inductive PRet : Type where
  | itemR : ItemV → PRet
  | groupsR : List PRes → PRet

/-- The recursive part of the grammar (source lines 39-41):
`item = hosts | lpar + full_grammar + rpar` and
`full_grammar = Group(item) + ZeroOrMore(Group(boolean + item))`.
`more acc` is the ZeroOrMore loop, which stops (without consuming
input) as soon as `Group(boolean + item)` fails, exactly as pyparsing
backtracks a failed repetition.  The fuel only bounds recursion depth;
`cs.length + 2` is always sufficient (each unit of fuel spent on the
spine consumes at least one input character). -/
def runP : Nat → PReq → List Char → Option (PRet × List Char)
  | 0, _, _ => none
  | f + 1, .item, cs =>
    match hostsMatch cs with
    | some (w, rest) => some (.itemR (.hostsI w), rest)
    | none =>
      match litMatch '(' cs with
      | none => none
      | some r1 =>
        match runP f .full r1 with
        | some (.groupsR gs, r2) =>
          match litMatch ')' r2 with
          | none => none
          | some r3 => some (.itemR (.subI gs), r3)
        | _ => none
  | f + 1, .full, cs =>
    match runP f .item cs with
    | some (.itemR v, r1) => runP f (.more [mkGroup none v]) r1
    | _ => none
  | f + 1, .more acc, cs =>
    match boolMatch cs with
    | none => some (.groupsR acc, cs)
    | some (b, r1) =>
      match runP f .item r1 with
      | some (.itemR v, r2) => runP f (.more (acc ++ [mkGroup (some b) v])) r2
      | _ => some (.groupsR acc, cs)

/-- `grammar().parseString(query, parseAll=True)`: parse the whole input;
trailing whitespace is allowed, anything else is a parse failure.
The enclosing driver is `BaseQuery.execute`, which is not part of the
sources; per the spec a parse failure becomes `InvalidQueryError`
(`buildTreeL` below adds that wrapping). -/
def parseQueryL (cs : List Char) : Option (List PRes) :=
  match runP (cs.length + 2) .full cs with
  | some (.groupsR gs, rest) => if (skipWs rest).isEmpty then some gs else none
  | _ => none

/-! ### Errors (spec section 7) -/

/-- The two error kinds of the spec: `InvalidQueryError` (grammar
violations, raised in `direct.py` and by the framework driver) and
`MalformedPatternError` (bad host-pattern syntax during expansion). -/
inductive Err : Type where
  | invalidQuery : Err
  | malformedPattern : Err
deriving DecidableEq

/-! ### Decimal numerals (for the host-pattern range expansion) -/

/-- The character of a decimal digit. -/
def digitChar (d : Nat) : Char := Char.ofNat (48 + d)

/-- Big-endian decimal digits of `n`; the fuel bounds the number of
digits (`n + 1` always suffices). -/
def decChars : Nat → Nat → List Char
  | 0, _ => []
  | f + 1, n => if n < 10 then [digitChar n] else decChars f (n / 10) ++ [digitChar (n % 10)]

/-- Big-endian decimal digits of `n` with no leading zeros. -/
def decDigits (n : Nat) : List Char := decChars (n + 1) n

/-- Value of a big-endian digit string (leading zeros allowed). -/
def ofDigits (l : List Char) : Nat :=
  l.foldl (fun a c => a * 10 + (c.toNat - 48)) 0

/-- `n` written with at least `w` digits, zero-padded on the left: the
formatting the spec prescribes for range elements ("preserving the
minimum digit width implied by start"). -/
def padDigits (w : Nat) (n : Nat) : List Char :=
  List.replicate (w - (decDigits n).length) '0' ++ decDigits n

/-! ### Host-pattern expansion

Modelled from the spec: the source delegates host-pattern expansion to
ClusterShell `NodeSet.fromlist` (source line 71), which is not among the
sources.  Spec section 4.1 specifies it: a pattern is a prefix, an
optional bracketed rangelist and a suffix; a `start-end` range requires
`start <= end` (else `MalformedPatternError`) and expands to the integers
of the range zero-padded to the width of the written start bound; a
pattern with no bracket is a single literal host name.  Only the parts
the claims exercise are modelled: one optional bracket holding a single
number or a single range; the comma list and the `!&^` set-algebra
operators of section 4.1 are not modelled here. -/
def expandOneL (cs : List Char) : Except Err (List (List Char)) :=
  let pre := cs.takeWhile (fun c => c ≠ '[')
  let rest0 := cs.dropWhile (fun c => c ≠ '[')
  if rest0.isEmpty then .ok [cs]
  else
    let rest := rest0.tail
    let ds1 := rest.takeWhile Char.isDigit
    let aft1 := rest.dropWhile Char.isDigit
    if ds1.isEmpty then .error .malformedPattern
    else
      match aft1 with
      | [] => .error .malformedPattern
      | c1 :: rest2 =>
        if c1 = ']' then .ok [pre ++ ds1 ++ rest2]
        else if c1 = '-' then
          let ds2 := rest2.takeWhile Char.isDigit
          let aft2 := rest2.dropWhile Char.isDigit
          if ds2.isEmpty then .error .malformedPattern
          else
            match aft2 with
            | [] => .error .malformedPattern
            | c2 :: suf =>
              if c2 = ']' then
                let a := ofDigits ds1
                let b := ofDigits ds2
                if b < a then .error .malformedPattern
                else .ok ((List.range (b + 1 - a)).map
                  (fun i => pre ++ padDigits ds1.length (a + i) ++ suf))
              else .error .malformedPattern
        else .error .malformedPattern

/-- Expansion of each word of a hosts token, concatenated. -/
def expandAll : List String → Except Err (List String)
  | [] => .ok []
  | w :: r =>
    match expandOneL w.toList with
    | .error e => .error e
    | .ok ls =>
      match expandAll r with
      | .error e => .error e
      | .ok rs => .ok (ls.map String.mk ++ rs)

/-- First-occurrence de-duplication (NodeSet collapses duplicates). -/
def dedupL (l : List String) : List String :=
  l.foldl (fun acc x => if acc.contains x then acc else acc ++ [x]) []

/-- Modelled from the spec: `NodeSet.fromlist(token_dict['hosts'])`
(source line 71) expands every word of the hosts token and collapses
duplicates. -/
def expandList (ws : List String) : Except Err (List String) :=
  match expandAll ws with
  | .error e => .error e
  | .ok l => .ok (dedupL l)

/-! ### The aggregator tree and stack

Modelled from the spec: `BaseQueryAggregator` (imported by the source,
not among the sources) maintains a stack of in-progress groups; spec
sections 3 and 6 specify it: opening a subgroup pushes a fresh empty
group, a completed operand is appended to the current group's children,
closing pops the group and appends it as an operand of its parent. -/

/-- A finished operand of a group: a host set (with the boolean operator
that preceded it, if any) or a closed subgroup. -/
inductive TreeElem : Type where
  | hostsElem : Option String → List String → TreeElem
  | groupElem : Option String → List TreeElem → TreeElem

/-- An in-progress group on the aggregator stack: its pending boolean
operator and the children appended so far. -/
structure GroupB : Type where
  boolv : Option String
  children : List TreeElem

/-- The aggregator stack: the group being filled (`stack_pointer`) plus
the suspended outer groups.  The root group is always present. -/
structure Agg : Type where
  top : GroupB
  rest : List GroupB

/-- Stack depth (1 = only the root group). -/
def aggDepth (st : Agg) : Nat := st.rest.length + 1

/-- Modelled from the spec: `_open_subgroup` pushes a fresh empty group. -/
def openSubgroup (st : Agg) : Agg := ⟨⟨none, []⟩, st.top :: st.rest⟩

/-- `if 'bool' in token_dict: self.stack_pointer['bool'] = ...`
(source lines 77-78). -/
def setTopBool (st : Agg) : Option String → Agg
  | none => st
  | some b => ⟨⟨some b, st.top.children⟩, st.rest⟩

/-- Modelled from the spec: `_close_subgroup` pops the current group and
appends it, as a `groupElem` operand, to the children of its parent;
`none` when there is no parent to receive it. -/
def closeSubgroup (st : Agg) : Option Agg :=
  match st.rest with
  | [] => none
  | p :: r => some ⟨⟨p.boolv, p.children ++ [.groupElem st.top.boolv st.top.children]⟩, r⟩

/-- Appending finished operands to the current group. -/
def pushChildren (st : Agg) (d : List TreeElem) : Agg :=
  ⟨⟨st.top.boolv, st.top.children ++ d⟩, st.rest⟩

/-- The initial stack: just the empty root group. -/
def initAgg : Agg := ⟨⟨none, []⟩, []⟩

/-- `DirectQuery._parse_token` (source lines 60-85), together with the
`for subtoken in token` loop it runs over a subgroup's items (plain
strings - grammar literals - are skipped, nested results are parsed
recursively).  `.inl t` is one call `_parse_token(t)`; `.inr items` is
the loop over `items`.  The fuel only bounds nesting depth; the final
`.error .invalidQuery` mirrors the defensive `raise InvalidQueryError`
of the unexpected-token branch (source lines 84-85), and the
`closeSubgroup` failure case is the stack underflow the framework would
raise on - both are proved unreachable on grammar output below. -/
def parseStep : Nat → Agg → PRes ⊕ List PItem → Except Err Agg
  | 0, _, _ => .error .invalidQuery
  | f + 1, st, .inl (.mk items bv hv op cl) =>
    match hv with
    | some ws =>
      match expandList ws with
      | .error e => .error e
      | .ok hs => .ok (pushChildren st [.hostsElem bv hs])
    | none =>
      if op && cl then
        let st2 := setTopBool (openSubgroup st) bv
        match parseStep f st2 (.inr items) with
        | .error e => .error e
        | .ok st3 =>
          match closeSubgroup st3 with
          | none => .error .invalidQuery
          | some st4 => .ok st4
      else .error .invalidQuery
  | _ + 1, st, .inr [] => .ok st
  | f + 1, st, .inr (.lit _ :: r) => parseStep f st (.inr r)
  | f + 1, st, .inr (.grp g :: r) =>
    match parseStep f st (.inl g) with
    | .error e => .error e
    | .ok st2 => parseStep f st2 (.inr r)

/-- The operands `_parse_token` contributes to the current group for one
token (or one item list), independent of the surrounding stack: the
specification of `parseStep`, proved equivalent below. -/
def deltaStep : Nat → PRes ⊕ List PItem → Except Err (List TreeElem)
  | 0, _ => .error .invalidQuery
  | _ + 1, .inl (.mk _ bv (some ws) _ _) =>
    match expandList ws with
    | .error e => .error e
    | .ok hs => .ok [.hostsElem bv hs]
  | f + 1, .inl (.mk items bv none op cl) =>
    if op && cl then
      match deltaStep f (.inr items) with
      | .error e => .error e
      | .ok l => .ok [.groupElem bv l]
    else .error .invalidQuery
  | _ + 1, .inr [] => .ok []
  | f + 1, .inr (.lit _ :: r) => deltaStep f (.inr r)
  | f + 1, .inr (.grp g :: r) =>
    match deltaStep f (.inl g) with
    | .error e => .error e
    | .ok d =>
      match deltaStep f (.inr r) with
      | .error e => .error e
      | .ok ds => .ok (d ++ ds)

/-- Modelled from the spec: the framework driver (`BaseQuery.execute`,
not among the sources) applies the grammar with `parseAll`, turns a
parse failure into `InvalidQueryError`, feeds every top-level token to
`_parse_token`, and yields the root group. -/
def buildTreeL (cs : List Char) : Except Err TreeElem :=
  match parseQueryL cs with
  | none => .error .invalidQuery
  | some gs =>
    match parseStep (3 * cs.length + 9) initAgg (.inr (gs.map .grp)) with
    | .error e => .error e
    | .ok st => .ok (.groupElem none st.top.children)

/-! ### Evaluation semantics

Modelled from the spec (section 4.2, "performed by the external
aggregation framework"): within one group, operands combine strictly
left to right; `and` is set intersection, `or` union, `xor` symmetric
difference, `and not` difference. -/

/-- One boolean operator applied to the running set. -/
def applyOp (op : String) (a b : Finset String) : Finset String :=
  if op = "and" then a ∩ b
  else if op = "or" then a ∪ b
  else if op = "xor" then (a ∪ b) \ (a ∩ b)
  else if op = "and not" then a \ b
  else a ∪ b

/-- The operator under which an operand joins the running set. -/
def opOf : TreeElem → Option String
  | .hostsElem b _ => b
  | .groupElem b _ => b

/-- Left-to-right evaluation of a tree.  `.inl t` evaluates one operand;
`.inr (acc, l)` folds the remaining operands of a group into the running
set (`none` before the first operand, whose operator is absent per spec
section 3).  An absent operator on a later operand (unreachable for
grammar-built trees) joins by union.  The fuel bounds nesting depth. -/
def evalStep : Nat → TreeElem ⊕ (Option (Finset String) × List TreeElem) → Finset String
  | 0, _ => ∅
  | _ + 1, .inl (.hostsElem _ hs) => hs.toFinset
  | f + 1, .inl (.groupElem _ l) => evalStep f (.inr (none, l))
  | _ + 1, .inr (acc, []) => acc.getD ∅
  | f + 1, .inr (none, c :: r) => evalStep f (.inr (some (evalStep f (.inl c)), r))
  | f + 1, .inr (some a, c :: r) =>
    evalStep f (.inr (some (applyOp ((opOf c).getD "or") a (evalStep f (.inl c))), r))

/-- Evaluation of one operand with explicit fuel. -/
def evalTree (f : Nat) (t : TreeElem) : Finset String := evalStep f (.inl t)

/-! ### Grammar-shape predicate and the nested-query family -/

/-- The token shapes the grammar can hand to `_parse_token`: a `hosts`
token, or a subgroup token carrying both parenthesis names whose nested
results are again of this shape.  (A hosts token's items are plain
strings only, and `_parse_token` never iterates them.) -/
inductive GoodTok : PRes → Prop where
  | hosts : ∀ items b ws o c, GoodTok (.mk items b (some ws) o c)
  | sub : ∀ items b, (∀ g, PItem.grp g ∈ items → GoodTok g) → GoodTok (.mk items b none true true)

/-- `GoodItem v` holds when the groups inside an `item` result are all
well-shaped. -/
def GoodItem : ItemV → Prop
  | .hostsI _ => True
  | .subI gs => ∀ g ∈ gs, GoodTok g

/-- The query `(((...h...)))` with `n` nested parentheses. -/
def nestedL : Nat → List Char
  | 0 => ['h']
  | n + 1 => '(' :: (nestedL n ++ [')'])

/-- The token the grammar produces for `nestedL n`. -/
def nTok : Nat → PRes
  | 0 => .mk [.lit "h"] none (some ["h"]) false false
  | n + 1 => .mk [.lit "(", .grp (nTok n), .lit ")"] none none true true

/-- The tree operand `_parse_token` builds from `nTok n`. -/
def elemOf : Nat → TreeElem
  | 0 => .hostsElem none ["h"]
  | n + 1 => .groupElem none [elemOf n]

theorem nestedL_length : ∀ n, (nestedL n).length = 2 * n + 1 := by
  intro n
  induction n with
  | zero => rfl
  | succ n ih => simp [nestedL, ih]; omega

/-! ### takeWhile and dropWhile helpers -/

theorem takeWhile_all {p : Char → Bool} :
    ∀ {l : List Char}, (∀ c ∈ l, p c = true) → l.takeWhile p = l := by
  intro l h
  induction l with
  | nil => rfl
  | cons x r ih =>
    simp only [List.takeWhile_cons, h x (by simp)]
    simp [ih fun c hc => h c (by simp [hc])]

theorem dropWhile_all {p : Char → Bool} :
    ∀ {l : List Char}, (∀ c ∈ l, p c = true) → l.dropWhile p = [] := by
  intro l h
  induction l with
  | nil => rfl
  | cons x r ih =>
    simp only [List.dropWhile_cons, h x (by simp)]
    simp [ih fun c hc => h c (by simp [hc])]

theorem takeWhile_append_stop {p : Char → Bool} {x : Char} {l2 : List Char} :
    ∀ {l1 : List Char}, (∀ c ∈ l1, p c = true) → p x = false →
      (l1 ++ x :: l2).takeWhile p = l1 := by
  intro l1 h hx
  induction l1 with
  | nil => simp [List.takeWhile_cons, hx]
  | cons y r ih =>
    simp only [List.cons_append, List.takeWhile_cons, h y (by simp)]
    simp [ih fun c hc => h c (by simp [hc])]

theorem dropWhile_append_stop {p : Char → Bool} {x : Char} {l2 : List Char} :
    ∀ {l1 : List Char}, (∀ c ∈ l1, p c = true) → p x = false →
      (l1 ++ x :: l2).dropWhile p = x :: l2 := by
  intro l1 h hx
  induction l1 with
  | nil => simp [List.dropWhile_cons, hx]
  | cons y r ih =>
    simp only [List.cons_append, List.dropWhile_cons, h y (by simp)]
    simp [ih fun c hc => h c (by simp [hc])]

/-! ### Decimal numeral lemmas -/

theorem digitVal_digitChar {k : Nat} (h : k < 10) : (digitChar k).toNat - 48 = k := by
  interval_cases k <;> decide

theorem digitChar_isDigit {k : Nat} (h : k < 10) : (digitChar k).isDigit = true := by
  interval_cases k <;> decide

theorem ofDigits_append_digit (xs : List Char) (c : Char) :
    ofDigits (xs ++ [c]) = ofDigits xs * 10 + (c.toNat - 48) := by
  simp [ofDigits, List.foldl_append]

theorem ofDigits_decChars : ∀ f n, n < 10 ^ f → ofDigits (decChars f n) = n := by
  intro f
  induction f with
  | zero =>
    intro n hn
    interval_cases n
    rfl
  | succ f ih =>
    intro n hn
    by_cases h10 : n < 10
    · simp [decChars, h10, ofDigits, digitVal_digitChar h10]
    · have hdiv : n / 10 < 10 ^ f := by
        rw [Nat.div_lt_iff_lt_mul (by norm_num : 0 < 10)]
        calc n < 10 ^ (f + 1) := hn
        _ = 10 ^ f * 10 := by rw [pow_succ]
      simp only [decChars, h10, if_false]
      rw [ofDigits_append_digit, ih _ hdiv, digitVal_digitChar (Nat.mod_lt _ (by norm_num))]
      omega

theorem ofDigits_decDigits (n : Nat) : ofDigits (decDigits n) = n := by
  have hlt : n < 10 ^ (n + 1) :=
    lt_of_lt_of_le (Nat.lt_pow_self (by norm_num) n) (Nat.pow_le_pow_right (by norm_num) (by omega))
  exact ofDigits_decChars (n + 1) n hlt

theorem ofDigits_replicate_zero (k : Nat) (l : List Char) :
    ofDigits (List.replicate k '0' ++ l) = ofDigits l := by
  induction k with
  | zero => rfl
  | succ k ih => simpa [ofDigits, List.replicate_succ] using ih

theorem ofDigits_padDigits (w n : Nat) : ofDigits (padDigits w n) = n := by
  rw [padDigits, ofDigits_replicate_zero, ofDigits_decDigits]

theorem decChars_digits : ∀ f n c, c ∈ decChars f n → c.isDigit = true := by
  intro f
  induction f with
  | zero => intro n c hc; simp [decChars] at hc
  | succ f ih =>
    intro n c hc
    by_cases h10 : n < 10
    · simp [decChars, h10] at hc
      simpa [hc] using digitChar_isDigit h10
    · simp [decChars, h10] at hc
      rcases hc with hc | hc
      · exact ih _ _ hc
      · simpa [hc] using digitChar_isDigit (Nat.mod_lt _ (by norm_num))

theorem decDigits_digits (n : Nat) : ∀ c ∈ decDigits n, c.isDigit = true :=
  fun c hc => decChars_digits (n + 1) n c hc

theorem decDigits_ne_nil (n : Nat) : decDigits n ≠ [] := by
  unfold decDigits decChars
  by_cases h10 : n < 10 <;> simp [h10]

/-! ### The framing lemma: `_parse_token` only appends to the current group -/

theorem pushChildren_append (st : Agg) (d ds : List TreeElem) :
    pushChildren (pushChildren st d) ds = pushChildren st (d ++ ds) := by
  simp [pushChildren]

/-- `_parse_token` acts on the aggregator stack purely by appending the
operands `deltaStep` computes to the current group: it never touches the
suspended outer groups, the current group's pending operator, or its
existing children. -/
theorem parseStep_eq_deltaStep :
    ∀ f x st, parseStep f st x = (deltaStep f x).map (pushChildren st) := by
  intro f
  induction f with
  | zero => intro x st; cases x <;> simp [parseStep, deltaStep, Except.map]
  | succ f ih =>
    intro x st
    match x with
    | .inl (.mk items bv (some ws) op cl) =>
      simp only [parseStep, deltaStep]
      cases hexp : expandList ws <;> simp [Except.map]
    | .inl (.mk items bv none op cl) =>
      simp only [parseStep, deltaStep]
      by_cases hoc : (op && cl) = true
      · simp only [hoc, if_true]
        rw [ih (.inr items) (setTopBool (openSubgroup st) bv)]
        cases hd : deltaStep f (.inr items) with
        | error e => simp [Except.map]
        | ok l =>
          simp only [Except.map]
          cases bv <;>
            simp [setTopBool, openSubgroup, pushChildren, closeSubgroup]
      · simp [hoc, Except.map]
    | .inr [] => simp [parseStep, deltaStep, Except.map, pushChildren]
    | .inr (.lit s :: r) =>
      simp only [parseStep, deltaStep]
      exact ih (.inr r) st
    | .inr (.grp g :: r) =>
      simp only [parseStep, deltaStep]
      rw [ih (.inl g) st]
      cases hg : deltaStep f (.inl g) with
      | error e => simp [Except.map]
      | ok d =>
        simp only [Except.map]
        rw [ih (.inr r) (pushChildren st d)]
        cases hr : deltaStep f (.inr r) <;> simp [Except.map, pushChildren_append]

/-! ### Claims C10, C1: stack discipline of `_parse_token` -/

/-- C10: for every token, `_parse_token` leaves the aggregator's group
stack at the same depth it had before the call, and its whole effect is
to append operands to the current group (so the one `_open_subgroup` of
the subgroup branch is always balanced by its `_close_subgroup` after
the recursion, and the hosts branch never changes the stack). -/
theorem c10_parse_token_preserves_stack_depth :
    ∀ f st t st2, parseStep f st (.inl t) = .ok st2 →
      aggDepth st2 = aggDepth st ∧ ∃ d, st2 = pushChildren st d := by
  intro f st t st2 h
  rw [parseStep_eq_deltaStep] at h
  cases hd : deltaStep f (.inl t) with
  | error e => rw [hd] at h; simp [Except.map] at h
  | ok d =>
    rw [hd] at h
    simp only [Except.map, Except.ok.injEq] at h
    exact ⟨by rw [← h]; simp [aggDepth, pushChildren], d, h.symm⟩

/-- Witness for C10 at the token of the query `h`. -/
theorem c10_parse_token_preserves_stack_depth_witness :
    aggDepth ⟨⟨none, [TreeElem.hostsElem none ["h"]]⟩, []⟩ = aggDepth initAgg ∧
      ∃ d, (⟨⟨none, [TreeElem.hostsElem none ["h"]]⟩, []⟩ : Agg) = pushChildren initAgg d :=
  c10_parse_token_preserves_stack_depth 3 initAgg (nTok 0) _ rfl

/-- C1: a boolean operator written immediately before `(` is attached by
`_parse_token` to the subgroup-as-operand in the parent group, and the
contents built inside the subgroup are the same as they would be with no
pending operator at all - the operator never reaches any operand inside
the subgroup. -/
theorem c1_pending_operator_attaches_to_subgroup :
    ∀ f st b items st2,
      parseStep f st (.inl (.mk items (some b) none true true)) = .ok st2 →
      ∃ inner,
        st2 = pushChildren st [.groupElem (some b) inner] ∧
        parseStep f st (.inl (.mk items none none true true)) =
          .ok (pushChildren st [.groupElem none inner]) := by
  intro f st b items st2 h
  cases f with
  | zero => simp [parseStep] at h
  | succ f =>
    rw [parseStep_eq_deltaStep] at h
    simp only [deltaStep, Bool.and_self, if_true] at h
    cases hd : deltaStep f (.inr items) with
    | error e => rw [hd] at h; simp [Except.map] at h
    | ok l =>
      rw [hd] at h
      simp only [Except.map, Except.ok.injEq] at h
      refine ⟨l, h.symm, ?_⟩
      rw [parseStep_eq_deltaStep]
      simp [deltaStep, hd, Except.map]

/-- Witness for C1 at the token of `and ( h )`. -/
theorem c1_pending_operator_attaches_to_subgroup_witness :
    ∃ inner,
      (⟨⟨none, [TreeElem.groupElem (some "and") [TreeElem.hostsElem none ["h"]]]⟩, []⟩ : Agg) =
        pushChildren initAgg [.groupElem (some "and") inner] ∧
      parseStep 7 initAgg
          (.inl (.mk [.lit "and", .lit "(", .grp (nTok 0), .lit ")"] none none true true)) =
        .ok (pushChildren initAgg [.groupElem none inner]) :=
  c1_pending_operator_attaches_to_subgroup 7 initAgg "and"
    [.lit "and", .lit "(", .grp (nTok 0), .lit ")"] _ rfl

/-! ### Claim C2: strict left-to-right evaluation, no precedence -/

/-- C2: a group's operands combine strictly left to right with no
operator precedence: generally, a flat group `A and B or C` evaluates to
`(A inter B) union C`; concretely, the query
`host[1-2] and host[2-3] or host4` builds the flat three-operand group,
which evaluates to `{host2, host4}`, differing from the right-associated
`A inter (B union C) = {host2}`. -/
theorem c2_left_to_right_no_precedence :
    (∀ l1 l2 l3 : List String,
      evalTree 5 (.groupElem none
        [.hostsElem none l1, .hostsElem (some "and") l2, .hostsElem (some "or") l3]) =
        l1.toFinset ∩ l2.toFinset ∪ l3.toFinset)
    ∧ buildTreeL ("host[1-2] and host[2-3] or host4".toList) =
        .ok (.groupElem none [.hostsElem none ["host1", "host2"],
          .hostsElem (some "and") ["host2", "host3"], .hostsElem (some "or") ["host4"]])
    ∧ evalTree 5 (.groupElem none [.hostsElem none ["host1", "host2"],
          .hostsElem (some "and") ["host2", "host3"], .hostsElem (some "or") ["host4"]]) =
        ({"host2", "host4"} : Finset String)
    ∧ ({"host1", "host2"} : Finset String) ∩ (({"host2", "host3"} : Finset String) ∪ {"host4"}) =
        ({"host2"} : Finset String)
    ∧ ({"host2", "host4"} : Finset String) ≠ ({"host2"} : Finset String) := by
  refine ⟨?_, rfl, by decide, by decide, by decide⟩
  intro l1 l2 l3
  rfl

/-! ### Claim C3: `and not` is matched before `and`, case-insensitively -/

/-- C3: wherever the keyword `and not` matches (case-insensitively), the
boolean matcher returns the `and not` operator - `and` never consumes a
prefix of an `and not`; and boolean keywords are recognized in any
letter case. -/
theorem c3_and_not_matched_before_and :
    (∀ cs r, kwAt ("and not".toList) (skipWs cs) = some r →
      boolMatch cs = some ("and not", r))
    ∧ boolMatch ("AND NOT x".toList) = some ("and not", " x".toList)
    ∧ boolMatch ("AnD host1".toList) = some ("and", " host1".toList) := by
  refine ⟨?_, by decide, by decide⟩
  intro cs r h
  have h2 : kwAt ['a', 'n', 'd', ' ', 'n', 'o', 't'] (skipWs cs) = some r := h
  simp [boolMatch, h2]

/-- Witness for C3 at the input `and not 42`. -/
theorem c3_and_not_matched_before_and_witness :
    boolMatch ("and not 42".toList) = some ("and not", " 42".toList) :=
  c3_and_not_matched_before_and.1 _ _ (by decide)

/-! ### Claim C4: structurally invalid queries fail with InvalidQueryError -/

/-- C4: an unmatched open parenthesis, two consecutive boolean
operators, and the empty query each fail with `InvalidQueryError` and
yield no tree. -/
theorem c4_invalid_queries_error :
    buildTreeL ("(host1".toList) = .error .invalidQuery ∧
    buildTreeL ("host1 and and host2".toList) = .error .invalidQuery ∧
    buildTreeL ("".toList) = .error .invalidQuery :=
  ⟨rfl, rfl, rfl⟩

/-! ### Claim C5: host tokens are never split after a keyword prefix -/

theorem hostChar_not_ws (c : Char) (h : hostChar c = true) : wsChar c = false := by
  by_contra hw
  have hw2 : wsChar c = true := by revert hw; cases wsChar c <;> simp
  have h3 : (c = ' ' ∨ c = '\t') ∨ c = '\n' := by
    simpa [wsChar] using hw2
  rcases h3 with (rfl | rfl) | rfl <;> simp [hostChar] at h

theorem skipWs_of_hostChars {x : Char} {r : List Char}
    (hall : ∀ c ∈ x :: r, hostChar c = true) : skipWs (x :: r) = x :: r := by
  have hx : wsChar x = false := hostChar_not_ws x (hall x (by simp))
  simp [skipWs, List.dropWhile_cons, hx]

/-- A whole input made of host characters, at which no boolean keyword
matches, parses as one single-word group. -/
theorem runP_word (f : Nat) (x : Char) (r : List Char)
    (hall : ∀ c ∈ x :: r, hostChar c = true) (hbm : boolMatch (x :: r) = none) :
    runP (f + 2) .full (x :: r) =
      some (.groupsR [mkGroup none (.hostsI (String.mk (x :: r)))], []) := by
  have hskip : skipWs (x :: r) = x :: r := skipWs_of_hostChars hall
  have hhm : hostsMatch (x :: r) = some (String.mk (x :: r), []) := by
    simp only [hostsMatch, hskip, hbm]
    rw [takeWhile_all hall, dropWhile_all hall]
  show runP ((f + 1) + 1) .full (x :: r) = _
  simp only [runP, hhm]
  simp [show boolMatch ([] : List Char) = none from by decide]

/-- C5: a nonempty string of host-alphabet characters at which the
boolean matcher does not fire (for example one that merely begins with
the letters of a keyword, like `andromeda`) is classified as one single
host token. -/
theorem c5_keyword_prefix_is_host_token :
    ∀ cs : List Char, cs ≠ [] → (∀ c ∈ cs, hostChar c = true) → boolMatch cs = none →
      parseQueryL cs =
        some [.mk [.lit (String.mk cs)] none (some [String.mk cs]) false false] := by
  intro cs hne hall hbm
  obtain ⟨x, r, rfl⟩ := List.exists_cons_of_ne_nil hne
  simp only [parseQueryL, List.length_cons]
  rw [runP_word (r.length + 1) x r hall hbm]
  simp [mkGroup, boolLits, skipWs]

/-- Witness for C5: `andromeda` is one host token, not `and` + `romeda`. -/
theorem c5_keyword_prefix_is_host_token_witness :
    parseQueryL ("andromeda".toList) =
      some [.mk [.lit "andromeda"] none (some ["andromeda"]) false false] :=
  c5_keyword_prefix_is_host_token ("andromeda".toList) (by decide) (by decide) (by decide)

/-! ### Claim C6: behavior at arbitrary nesting depth -/

theorem kwAt_cons_head_ne (k0 : Char) (kr : List Char) (c : Char) (r : List Char)
    (hne : c.toLower ≠ k0) : kwAt (k0 :: kr) (c :: r) = none := by
  simp only [kwAt]
  rw [if_neg]
  intro hEq
  simp only [List.length_cons, List.take_succ_cons, List.map_cons, List.cons.injEq] at hEq
  exact hne hEq.1

/-- At a non-whitespace head whose lower case is none of `a`, `x`, `o`,
no boolean keyword can match. -/
theorem boolMatch_head_ne (c : Char) (r : List Char) (hws : wsChar c = false)
    (ha : c.toLower ≠ 'a') (hx : c.toLower ≠ 'x') (ho : c.toLower ≠ 'o') :
    boolMatch (c :: r) = none := by
  have hskip : skipWs (c :: r) = c :: r := by simp [skipWs, List.dropWhile_cons, hws]
  have h1 : kwAt ("and not".toList) (c :: r) = none := kwAt_cons_head_ne 'a' _ c r ha
  have h2 : kwAt ("and".toList) (c :: r) = none := kwAt_cons_head_ne 'a' _ c r ha
  have h3 : kwAt ("xor".toList) (c :: r) = none := kwAt_cons_head_ne 'x' _ c r hx
  have h4 : kwAt ("or".toList) (c :: r) = none := kwAt_cons_head_ne 'o' _ c r ho
  simp only [boolMatch, hskip, h1, h2, h3, h4]

theorem hostsMatch_lpar (r : List Char) : hostsMatch ('(' :: r) = none := by
  have hb := boolMatch_head_ne '(' r (by decide) (by decide) (by decide) (by decide)
  simp [hostsMatch, skipWs, List.dropWhile_cons, List.takeWhile_cons, hb,
    show wsChar '(' = false from by decide, show hostChar '(' = false from by decide]

theorem litMatch_head (c : Char) (r : List Char) (hws : wsChar c = false) :
    litMatch c (c :: r) = some r := by
  simp [litMatch, skipWs, List.dropWhile_cons, hws]

/-- A suffix at which parsing of a group list legitimately stops: the
end of the input or a closing parenthesis. -/
def StopSfx (suffix : List Char) : Prop := suffix = [] ∨ ∃ s2, suffix = ')' :: s2

theorem boolMatch_stop {suffix : List Char} (h : StopSfx suffix) : boolMatch suffix = none := by
  rcases h with rfl | ⟨s2, rfl⟩
  · decide
  · exact boolMatch_head_ne ')' s2 (by decide) (by decide) (by decide) (by decide)

/-- The grammar parses `(((...h...)))` at any depth `n`, producing the
single nested token `nTok n` and stopping exactly at the suffix. -/
theorem runP_nested : ∀ n f suffix, 2 * n + 3 ≤ f → StopSfx suffix →
    runP f .full (nestedL n ++ suffix) = some (.groupsR [nTok n], suffix) := by
  intro n
  induction n with
  | zero =>
    intro f suffix hf hsfx
    obtain ⟨f1, rfl⟩ : ∃ f1, f = f1 + 1 + 1 := ⟨f - 2, by omega⟩
    have hbm : boolMatch ('h' :: suffix) = none :=
      boolMatch_head_ne 'h' suffix (by decide) (by decide) (by decide) (by decide)
    have hskip : skipWs ('h' :: suffix) = 'h' :: suffix := by
      simp [skipWs, List.dropWhile_cons, show wsChar 'h' = false from by decide]
    have htk : ('h' :: suffix).takeWhile hostChar = ['h'] := by
      rcases hsfx with rfl | ⟨s2, rfl⟩ <;>
        simp [List.takeWhile_cons, show hostChar 'h' = true from by decide,
          show hostChar ')' = false from by decide]
    have hdr : ('h' :: suffix).dropWhile hostChar = suffix := by
      rcases hsfx with rfl | ⟨s2, rfl⟩ <;>
        simp [List.dropWhile_cons, show hostChar 'h' = true from by decide,
          show hostChar ')' = false from by decide]
    have hhm : hostsMatch ('h' :: suffix) = some ("h", suffix) := by
      simp only [hostsMatch, hskip, hbm, htk, hdr]
    simp only [nestedL, List.cons_append, List.nil_append, runP, hhm,
      boolMatch_stop hsfx]
    simp [mkGroup, boolLits, nTok]
  | succ n ih =>
    intro f suffix hf hsfx
    obtain ⟨f1, rfl⟩ : ∃ f1, f = f1 + 1 + 1 := ⟨f - 2, by omega⟩
    have hin : nestedL (n + 1) ++ suffix = '(' :: (nestedL n ++ (')' :: suffix)) := by
      simp [nestedL, List.append_assoc]
    rw [hin]
    have hih := ih f1 (')' :: suffix) (by omega) (Or.inr ⟨suffix, rfl⟩)
    have hcl : litMatch ')' (')' :: suffix) = some suffix := litMatch_head ')' _ (by decide)
    simp only [runP, hostsMatch_lpar, litMatch_head '(' _ (by decide), hih, hcl,
      boolMatch_stop hsfx]
    simp only [mkGroup, boolLits, nTok, List.map, List.nil_append, List.cons_append]

/-- The full query pipeline on `nestedL n`. -/
theorem parseQueryL_nested (n : Nat) : parseQueryL (nestedL n) = some [nTok n] := by
  have h := runP_nested n ((nestedL n).length + 2) [] (by rw [nestedL_length]) (Or.inl rfl)
  rw [List.append_nil] at h
  simp [parseQueryL, h, skipWs]

/-- `_parse_token` builds `elemOf n` from `nTok n` at any depth, given
fuel at least `3 * n + 4`. -/
theorem parseStep_nTok : ∀ n f st, 3 * n + 4 ≤ f →
    parseStep f st (.inl (nTok n)) = .ok (pushChildren st [elemOf n]) := by
  intro n
  induction n with
  | zero =>
    intro f st hf
    obtain ⟨f1, rfl⟩ : ∃ f1, f = f1 + 1 := ⟨f - 1, by omega⟩
    simp only [nTok, parseStep]
    simp [show expandList ["h"] = .ok ["h"] from rfl, elemOf]
  | succ n ih =>
    intro f st hf
    obtain ⟨f5, rfl⟩ : ∃ f5, f = f5 + 1 + 1 + 1 + 1 + 1 := ⟨f - 5, by omega⟩
    simp only [nTok, parseStep, setTopBool]
    rw [ih (f5 + 1 + 1) (openSubgroup st) (by omega)]
    simp only [parseStep]
    simp [openSubgroup, closeSubgroup, pushChildren, elemOf]

/-- The whole driver succeeds on `nestedL n` for every `n`. -/
theorem buildTreeL_nested (n : Nat) :
    buildTreeL (nestedL n) = .ok (.groupElem none [elemOf n]) := by
  simp only [buildTreeL, parseQueryL_nested n, List.map]
  have h1 : 3 * (nestedL n).length + 9 = 6 * n + 11 + 1 := by rw [nestedL_length]; omega
  rw [h1]
  simp only [parseStep]
  rw [parseStep_nTok n (6 * n + 11) initAgg (by omega)]
  simp [pushChildren, initAgg]

/-- C6 counterexample: no implementation-defined nesting-depth limit
exists; there is no bound beyond which parsing returns
`InvalidQueryError` - the nested queries succeed at every depth. -/
theorem c6_depth_limit_counterexample :
    ¬ ∃ L : Nat, ∀ n : Nat, L < n → buildTreeL (nestedL n) = .error .invalidQuery := by
  rintro ⟨L, h⟩
  have h2 := h (L + 1) (by omega)
  rw [buildTreeL_nested (L + 1)] at h2
  exact Except.noConfusion h2

/-- C6 (amended): the code has no explicit nesting-depth limit; a
balanced query of every nesting depth parses successfully into the
correspondingly nested tree (depth is bounded only by the host call
stack, as spec section 3 states). -/
theorem c6_every_depth_parses (n : Nat) :
    buildTreeL (nestedL n) = .ok (.groupElem none [elemOf n]) :=
  buildTreeL_nested n

/-! ### Claims C7, C8: range expansion -/

theorem decDigits_isEmpty_false (n : Nat) : (decDigits n).isEmpty = false := by
  cases hd : decDigits n with
  | nil => exact absurd hd (decDigits_ne_nil n)
  | cons d t => simp

/-- Expansion of the pattern `p[a-b]s` (with the bounds written in
canonical decimal): the inverted-range check followed by the zero-padded
range, exactly as the branch structure of `expandOneL` computes it. -/
theorem expandOneL_rangePat (p s : List Char) (a b : Nat) (hp : '[' ∉ p) :
    expandOneL (p ++ '[' :: (decDigits a ++ '-' :: (decDigits b ++ ']' :: s))) =
      if b < a then .error .malformedPattern
      else .ok ((List.range (b + 1 - a)).map
        (fun i => p ++ padDigits (decDigits a).length (a + i) ++ s)) := by
  have hpb : ∀ c ∈ p, (decide (c ≠ '[')) = true := by
    intro c hc
    simp only [decide_eq_true_eq]
    exact fun h => hp (h ▸ hc)
  have hbr : (decide (('[' : Char) ≠ '[')) = false := by decide
  have h1 : (p ++ '[' :: (decDigits a ++ '-' :: (decDigits b ++ ']' :: s))).takeWhile
      (fun c => decide (c ≠ '[')) = p := takeWhile_append_stop hpb hbr
  have h2 : (p ++ '[' :: (decDigits a ++ '-' :: (decDigits b ++ ']' :: s))).dropWhile
      (fun c => decide (c ≠ '[')) = '[' :: (decDigits a ++ '-' :: (decDigits b ++ ']' :: s)) :=
    dropWhile_append_stop hpb hbr
  have h3 : (decDigits a ++ '-' :: (decDigits b ++ ']' :: s)).takeWhile Char.isDigit =
      decDigits a := takeWhile_append_stop (decDigits_digits a) (by decide)
  have h4 : (decDigits a ++ '-' :: (decDigits b ++ ']' :: s)).dropWhile Char.isDigit =
      '-' :: (decDigits b ++ ']' :: s) := dropWhile_append_stop (decDigits_digits a) (by decide)
  have h5 : (decDigits b ++ ']' :: s).takeWhile Char.isDigit = decDigits b :=
    takeWhile_append_stop (decDigits_digits b) (by decide)
  have h6 : (decDigits b ++ ']' :: s).dropWhile Char.isDigit = ']' :: s :=
    dropWhile_append_stop (decDigits_digits b) (by decide)
  simp only [expandOneL, h1, h2, List.isEmpty_cons, List.tail_cons, h3, h4, h5, h6,
    decDigits_isEmpty_false, ofDigits_decDigits, Bool.false_eq_true, if_false]
  simp [ofDigits_decDigits]

/-- C7: for every valid range pattern `p[a-b]s` with `a <= b`, expansion
yields exactly `b - a + 1` host names, the i-th being the prefix, the
integer `a + i` zero-padded to the width of the written start bound, and
the suffix - so ascending numeric order - with no duplicates; and
`host[1-3]` expands to exactly `host1, host2, host3` in order. -/
theorem c7_range_expansion :
    (∀ (p s : List Char) (a b : Nat), '[' ∉ p → a ≤ b →
      expandOneL (p ++ '[' :: (decDigits a ++ '-' :: (decDigits b ++ ']' :: s))) =
        .ok ((List.range (b + 1 - a)).map
          (fun i => p ++ padDigits (decDigits a).length (a + i) ++ s)) ∧
      ((List.range (b + 1 - a)).map
          (fun i => p ++ padDigits (decDigits a).length (a + i) ++ s)).length = b - a + 1 ∧
      ((List.range (b + 1 - a)).map
          (fun i => p ++ padDigits (decDigits a).length (a + i) ++ s)).Nodup)
    ∧ expandOneL ("host[1-3]".toList) = .ok ["host1".toList, "host2".toList, "host3".toList] := by
  refine ⟨?_, rfl⟩
  intro p s a b hp hab
  refine ⟨?_, ?_, ?_⟩
  · rw [expandOneL_rangePat p s a b hp, if_neg (by omega)]
  · simp only [List.length_map, List.length_range]
    omega
  · refine List.Nodup.map ?_ (List.nodup_range _)
    intro i j hij
    have h1 : p ++ padDigits (decDigits a).length (a + i) =
        p ++ padDigits (decDigits a).length (a + j) := List.append_cancel_right hij
    have h2 : padDigits (decDigits a).length (a + i) =
        padDigits (decDigits a).length (a + j) := List.append_cancel_left h1
    have h3 := congrArg ofDigits h2
    rw [ofDigits_padDigits, ofDigits_padDigits] at h3
    omega

/-- Witness for C7 at the pattern `host[1-3]`. -/
theorem c7_range_expansion_witness :
    expandOneL ("host".toList ++ '[' :: (decDigits 1 ++ '-' :: (decDigits 3 ++ ']' :: []))) =
        .ok ((List.range (3 + 1 - 1)).map
          (fun i => "host".toList ++ padDigits (decDigits 1).length (1 + i) ++ [])) ∧
      ((List.range (3 + 1 - 1)).map
          (fun i => "host".toList ++ padDigits (decDigits 1).length (1 + i) ++ [])).length =
        3 - 1 + 1 ∧
      ((List.range (3 + 1 - 1)).map
          (fun i => "host".toList ++ padDigits (decDigits 1).length (1 + i) ++ [])).Nodup :=
  c7_range_expansion.1 "host".toList [] 1 3 (by decide) (by decide)

/-- C8: for every inverted range pattern `p[a-b]s` with `a > b`,
expansion fails with `MalformedPatternError`; in particular `host[5-1]`
does. -/
theorem c8_inverted_range_fails :
    (∀ (p s : List Char) (a b : Nat), '[' ∉ p → b < a →
      expandOneL (p ++ '[' :: (decDigits a ++ '-' :: (decDigits b ++ ']' :: s))) =
        .error .malformedPattern)
    ∧ expandOneL ("host[5-1]".toList) = .error .malformedPattern := by
  refine ⟨?_, rfl⟩
  intro p s a b hp hba
  rw [expandOneL_rangePat p s a b hp, if_pos hba]

/-- Witness for C8 at the pattern `host[5-1]`. -/
theorem c8_inverted_range_fails_witness :
    expandOneL ("host".toList ++ '[' :: (decDigits 5 ++ '-' :: (decDigits 1 ++ ']' :: []))) =
      .error .malformedPattern :=
  c8_inverted_range_fails.1 "host".toList [] 5 1 (by decide) (by decide)

/-! ### Claim C9: grammar output shape and the defensive branches -/

theorem expandOneL_error : ∀ cs e, expandOneL cs = .error e → e = .malformedPattern := by
  intro cs e h
  simp only [expandOneL] at h
  repeat' split at h
  all_goals first
    | (cases h; rfl)
    | cases h

theorem expandAll_error : ∀ ws e, expandAll ws = .error e → e = .malformedPattern := by
  intro ws
  induction ws with
  | nil => intro e h; cases h
  | cons w r ih =>
    intro e h
    simp only [expandAll] at h
    split at h
    · injection h with h2
      rw [← h2]
      exact expandOneL_error _ _ (by assumption)
    · split at h
      · injection h with h2
        rw [← h2]
        exact ih _ (by assumption)
      · cases h

theorem expandList_error : ∀ ws e, expandList ws = .error e → e = .malformedPattern := by
  intro ws e h
  simp only [expandList] at h
  split at h
  · injection h with h2
    rw [← h2]
    exact expandAll_error _ _ (by assumption)
  · cases h

/-- Item lists of well-shaped tokens are processed by `deltaStep` with a
definite outcome: success or a pattern-expansion error. -/
theorem deltaStep_items_good : ∀ (items : List PItem),
    (∀ g, PItem.grp g ∈ items → ∃ f0, ∀ f, f0 ≤ f →
      (∃ d, deltaStep f (.inl g) = .ok d) ∨ deltaStep f (.inl g) = .error .malformedPattern) →
    ∃ f0, ∀ f, f0 ≤ f →
      (∃ d, deltaStep f (.inr items) = .ok d) ∨
        deltaStep f (.inr items) = .error .malformedPattern := by
  intro items h
  induction items with
  | nil =>
    refine ⟨1, fun f hf => ?_⟩
    obtain ⟨f1, rfl⟩ : ∃ f1, f = f1 + 1 := ⟨f - 1, by omega⟩
    exact Or.inl ⟨[], by simp [deltaStep]⟩
  | cons it r ih =>
    obtain ⟨fr, hfr⟩ := ih fun g hg => h g (by simp [hg])
    cases it with
    | lit s2 =>
      refine ⟨fr + 1, fun f hf => ?_⟩
      obtain ⟨f1, rfl⟩ : ∃ f1, f = f1 + 1 := ⟨f - 1, by omega⟩
      simp only [deltaStep]
      exact hfr f1 (by omega)
    | grp g =>
      obtain ⟨fg, hfg⟩ := h g (by simp)
      refine ⟨max fg fr + 1, fun f hf => ?_⟩
      obtain ⟨f1, rfl⟩ : ∃ f1, f = f1 + 1 := ⟨f - 1, by omega⟩
      have hm : max fg fr ≤ f1 := by omega
      have hg1 : fg ≤ f1 := le_trans (Nat.le_max_left _ _) hm
      have hr1 : fr ≤ f1 := le_trans (Nat.le_max_right _ _) hm
      simp only [deltaStep]
      rcases hfg f1 hg1 with ⟨d, hd⟩ | hd
      · rw [hd]
        rcases hfr f1 hr1 with ⟨ds, hds⟩ | hds
        · rw [hds]; exact Or.inl ⟨d ++ ds, rfl⟩
        · rw [hds]; exact Or.inr rfl
      · rw [hd]; exact Or.inr rfl

/-- On a well-shaped token, `deltaStep` (given enough fuel) either
succeeds or fails with the pattern-expansion error: it never reaches the
defensive `InvalidQueryError` branches. -/
theorem deltaStep_goodTok : ∀ t, GoodTok t → ∃ f0, ∀ f, f0 ≤ f →
    (∃ d, deltaStep f (.inl t) = .ok d) ∨ deltaStep f (.inl t) = .error .malformedPattern := by
  intro t h
  induction h with
  | hosts items b ws o c =>
    refine ⟨1, fun f hf => ?_⟩
    obtain ⟨f1, rfl⟩ : ∃ f1, f = f1 + 1 := ⟨f - 1, by omega⟩
    simp only [deltaStep]
    cases hexp : expandList ws with
    | error e =>
      right
      have h2 := expandList_error ws e hexp
      simp [h2]
    | ok hs => exact Or.inl ⟨[.hostsElem b hs], rfl⟩
  | sub items b hsub ih =>
    obtain ⟨f0, hf0⟩ := deltaStep_items_good items ih
    refine ⟨f0 + 1, fun f hf => ?_⟩
    obtain ⟨f1, rfl⟩ : ∃ f1, f = f1 + 1 := ⟨f - 1, by omega⟩
    simp only [deltaStep, Bool.and_self, if_true]
    rcases hf0 f1 (by omega) with ⟨d, hd⟩ | hd
    · rw [hd]; exact Or.inl ⟨_, rfl⟩
    · rw [hd]; exact Or.inr rfl

/-- Every group a well-shaped `item` yields is well-shaped. -/
theorem mkGroup_good (b : Option String) (v : ItemV) (hv : GoodItem v) :
    GoodTok (mkGroup b v) := by
  cases v with
  | hostsI w => exact GoodTok.hosts _ _ _ _ _
  | subI gs =>
    refine GoodTok.sub _ _ ?_
    intro g hg
    have hmem : g ∈ gs := by
      rcases b with _ | b2 <;> simp [mkGroup, boolLits] at hg <;> exact hg
    exact hv g hmem

/-- Every group the grammar produces, at any production, is well-shaped. -/
theorem runP_goodTok : ∀ f,
    (∀ cs v rest, runP f .item cs = some (.itemR v, rest) → GoodItem v) ∧
    (∀ cs gs rest, runP f .full cs = some (.groupsR gs, rest) → ∀ g ∈ gs, GoodTok g) ∧
    (∀ acc cs gs rest, (∀ g ∈ acc, GoodTok g) →
      runP f (.more acc) cs = some (.groupsR gs, rest) → ∀ g ∈ gs, GoodTok g) := by
  intro f
  induction f with
  | zero =>
    refine ⟨?_, ?_, ?_⟩
    · intro cs v rest h; simp [runP] at h
    · intro cs gs rest h; simp [runP] at h
    · intro acc cs gs rest hacc h; simp [runP] at h
  | succ f ih =>
    obtain ⟨ih1, ih2, ih3⟩ := ih
    refine ⟨?_, ?_, ?_⟩
    · intro cs v rest h
      simp only [runP] at h
      split at h
      · simp only [Option.some.injEq, Prod.mk.injEq, PRet.itemR.injEq] at h
        rw [← h.1]
        trivial
      · split at h
        · cases h
        · split at h
          · split at h
            · cases h
            · simp only [Option.some.injEq, Prod.mk.injEq, PRet.itemR.injEq] at h
              rw [← h.1]
              exact ih2 _ _ _ (by assumption)
          · cases h
    · intro cs gs rest h
      simp only [runP] at h
      split at h
      · refine ih3 _ _ _ _ ?_ h
        intro g hg
        simp only [List.mem_singleton] at hg
        rw [hg]
        exact mkGroup_good none _ (ih1 _ _ _ (by assumption))
      · cases h
    · intro acc cs gs rest hacc h
      simp only [runP] at h
      split at h
      · simp only [Option.some.injEq, Prod.mk.injEq, PRet.groupsR.injEq] at h
        rw [← h.1]
        exact hacc
      · split at h
        · refine ih3 _ _ _ _ ?_ h
          intro g hg
          rcases List.mem_append.mp hg with hg1 | hg2
          · exact hacc g hg1
          · simp only [List.mem_singleton] at hg2
            rw [hg2]
            exact mkGroup_good _ _ (ih1 _ _ _ (by assumption))
        · simp only [Option.some.injEq, Prod.mk.injEq, PRet.groupsR.injEq] at h
          rw [← h.1]
          exact hacc

/-- C9: every token the grammar hands to `_parse_token` carries either
the `hosts` name or both subgroup names, recursively (`GoodTok`), and on
such tokens `_parse_token` either succeeds or propagates a
pattern-expansion error - the two defensive `InvalidQueryError`
branches (non-ParseResults input and unexpected token shape) are
unreachable on grammar output. -/
theorem c9_defensive_branches_unreachable :
    (∀ cs gs, parseQueryL cs = some gs → ∀ g ∈ gs, GoodTok g) ∧
    (∀ t, GoodTok t → ∃ f0, ∀ f st, f0 ≤ f →
      (∃ st2, parseStep f st (.inl t) = .ok st2) ∨
        parseStep f st (.inl t) = .error .malformedPattern) := by
  constructor
  · intro cs gs h
    simp only [parseQueryL] at h
    split at h
    · split at h
      · simp only [Option.some.injEq] at h
        rw [← h]
        exact (runP_goodTok (cs.length + 2)).2.1 _ _ _ (by assumption)
      · cases h
    · cases h
  · intro t ht
    obtain ⟨f0, hf0⟩ := deltaStep_goodTok t ht
    refine ⟨f0, fun f st hf => ?_⟩
    rcases hf0 f hf with ⟨d, hd⟩ | hd
    · exact Or.inl ⟨_, by rw [parseStep_eq_deltaStep, hd]; rfl⟩
    · exact Or.inr (by rw [parseStep_eq_deltaStep, hd]; rfl)

/-- Witness for C9: the parsed query `h` yields well-shaped tokens, and
`_parse_token` on the token of `h` cannot hit the defensive branches. -/
theorem c9_defensive_branches_unreachable_witness :
    (∀ g ∈ [PRes.mk [PItem.lit "h"] none (some ["h"]) false false], GoodTok g) ∧
    (∃ f0, ∀ f st, f0 ≤ f →
      (∃ st2, parseStep f st (.inl (nTok 0)) = .ok st2) ∨
        parseStep f st (.inl (nTok 0)) = .error .malformedPattern) :=
  ⟨c9_defensive_branches_unreachable.1 ("h".toList) _ rfl,
    c9_defensive_branches_unreachable.2 (nTok 0) (GoodTok.hosts _ _ _ _ _)⟩
